import Mathlib

/-!
Shallow embedding of `nn/activations.py` (simple-neural-nets): the layer
forward/backward core.  Tensors are rank-1 or rank-2 arrays of exact field
elements; numpy operations (`np.dot`, broadcasting arithmetic, `np.sum` along
axis 0, transpose) are modelled as total Lean functions returning `Option`,
where `none` stands for the exception numpy raises (shape mismatch, operation
on an absent `None` cache).  The transcendental `np.exp` is an external
primitive of the numeric environment and is passed in as a function parameter
`exp`; every statement about sigmoid/tanh holds for an arbitrary such
parameter, hence in particular for the real exponential.
-/

namespace NN

section Core

variable {α : Type} [LinearOrderedCommRing α]

/-- A numpy `ndarray` restricted to the ranks this core produces:
rank-1 vectors and rank-2 (batch × features) matrices. -/
inductive Tensor (α : Type) where
  | r1 : List α → Tensor α
  | r2 : List (List α) → Tensor α
deriving DecidableEq

/-- numpy shape of a tensor. -/
def Tensor.shape : Tensor α → List Nat
  | .r1 v => [v.length]
  | .r2 m => [m.length, (m.headD []).length]

/-- Element `m[i][j]` of a rank-2 array, with `0` out of range. -/
def entry (m : List (List α)) (i j : Nat) : α :=
  (m.getD i []).getD j 0

/-- Column count of a rank-2 array (length of its first row). -/
def cols (m : List (List α)) : Nat :=
  (m.headD []).length

/-- The array is rectangular with `r` rows of `c` entries each. -/
def Rect (m : List (List α)) (r c : Nat) : Prop :=
  m.length = r ∧ ∀ row ∈ m, row.length = c

instance (m : List (List α)) (r c : Nat) : Decidable (Rect m r c) :=
  inferInstanceAs (Decidable (m.length = r ∧ ∀ row ∈ m, row.length = c))

/-- Boolean check that every row has length `c`. -/
def isRect (m : List (List α)) (c : Nat) : Bool :=
  m.all fun row => row.length == c

/-- numpy broadcast of two axis lengths: equal, or one of them is `1`. -/
def bcDim (a b : Nat) : Option Nat :=
  if a = b then some a else if a = 1 then some b else if b = 1 then some a else none

/-- Index into an axis of length `dim` after broadcasting: a length-1 axis
is read at position `0`. -/
def bidx (dim i : Nat) : Nat :=
  if dim = 1 then 0 else i

/-- Raw matrix product (no shape check): row `i`, column `j` holds
`∑ k, x[i][k] * w[k][j]`. -/
def matmulRaw (x w : List (List α)) : List (List α) :=
  x.map fun r => (List.range (cols w)).map fun j =>
    ∑ k ∈ Finset.range w.length, r.getD k 0 * entry w k j

/-- Model of `np.dot` on two rank-2 arrays: requires `x`'s row length to equal
`w`'s row count (and rectangular operands), else raises (`none`). -/
def dot (x w : List (List α)) : Option (List (List α)) :=
  if isRect x w.length && isRect w (cols w) then some (matmulRaw x w) else none

/-- numpy transpose of a rank-2 array. -/
def transposeRaw (m : List (List α)) : List (List α) :=
  (List.range (cols m)).map fun j => m.map fun row => row.getD j 0

/-- Model of `np.sum(m, 0)`: column-wise sums, a rank-1 array of length `cols m`. -/
def colSum (m : List (List α)) : List α :=
  (List.range (cols m)).map fun j => ∑ i ∈ Finset.range m.length, entry m i j

/-- Elementwise binary operation on two rank-2 arrays with numpy
broadcasting; `none` when the shapes are incompatible. -/
def bcast2 (f : α → α → α) (x y : List (List α)) : Option (List (List α)) :=
  if isRect x (cols x) && isRect y (cols y) then
    match bcDim x.length y.length, bcDim (cols x) (cols y) with
    | some r, some c =>
        some ((List.range r).map fun i => (List.range c).map fun j =>
          f (entry x (bidx x.length i) (bidx (cols x) j))
            (entry y (bidx y.length i) (bidx (cols y) j)))
    | _, _ => none
  else none

/-- Elementwise binary operation of a rank-2 array with a rank-1 array
(numpy aligns the trailing axes). -/
def bcast21 (f : α → α → α) (x : List (List α)) (v : List α) : Option (List (List α)) :=
  if isRect x (cols x) then
    match bcDim (cols x) v.length with
    | some c =>
        some ((List.range x.length).map fun i => (List.range c).map fun j =>
          f (entry x i (bidx (cols x) j)) (v.getD (bidx v.length j) 0))
    | none => none
  else none

/-- Elementwise binary operation of a rank-1 array with a rank-2 array. -/
def bcast12 (f : α → α → α) (v : List α) (y : List (List α)) : Option (List (List α)) :=
  if isRect y (cols y) then
    match bcDim v.length (cols y) with
    | some c =>
        some ((List.range y.length).map fun i => (List.range c).map fun j =>
          f (v.getD (bidx v.length j) 0) (entry y i (bidx (cols y) j)))
    | none => none
  else none

/-- Elementwise binary operation on two rank-1 arrays with broadcasting. -/
def bcast1 (f : α → α → α) (u v : List α) : Option (List α) :=
  match bcDim u.length v.length with
  | some c =>
      some ((List.range c).map fun j =>
        f (u.getD (bidx u.length j) 0) (v.getD (bidx v.length j) 0))
  | none => none

/-- numpy elementwise binary arithmetic on tensors, with broadcasting. -/
def ewise (f : α → α → α) : Tensor α → Tensor α → Option (Tensor α)
  | .r2 x, .r2 y => (bcast2 f x y).map .r2
  | .r2 x, .r1 v => (bcast21 f x v).map .r2
  | .r1 v, .r2 y => (bcast12 f v y).map .r2
  | .r1 u, .r1 v => (bcast1 f u v).map .r1

/-- numpy elementwise unary function application on a tensor. -/
def tmap (f : α → α) : Tensor α → Tensor α
  | .r1 v => .r1 (v.map f)
  | .r2 m => .r2 (m.map (List.map f))

/-- Model of `np.zeros((r, c))`. -/
def zeros2 (r c : Nat) : List (List α) :=
  List.replicate r (List.replicate c (0 : α))

/-- State of the `Linear` (dense) layer: weights, biases, the cached forward
activations (`None` before the first forward call), and the gradient buffers.
Field names drop the Python leading underscores. -/
structure Linear (α : Type) where
  weights : List (List α)
  biases : List (List α)
  cached_activations : Option (List (List α))
  weight_gradients : List (List α)
  bias_gradients : Tensor α
deriving DecidableEq

/-- Construction, `Linear.__init__`.  Modelled from the spec: `initialise_weights`
(`nn/weights.py`, not part of this core) is an external collaborator that
returns a weight tensor of the requested `(in_size, out_size)` shape, so the
already-initialised weight matrix `w` is taken as a parameter.  Biases and
both gradient buffers start as zeros, the cache starts absent. -/
def Linear.init (w : List (List α)) (out_size : Nat) : Linear α :=
  { weights := w
    biases := zeros2 1 out_size
    cached_activations := none
    weight_gradients := zeros2 w.length (cols w)
    bias_gradients := .r2 (zeros2 1 out_size) }

/-- The `Linear.trainable` property is `True`. -/
def Linear.trainable : Bool := true

/-- Model of `Linear.forward`: `activations = np.dot(x, weights) + biases`,
cache the activations, return them.  A shape mismatch in the product raises
(`none`) and leaves the state unchanged.  The model restricts the dense
layer's operands to the contract's rank-2 batch-major tensors. -/
def Linear.forward (l : Linear α) : Tensor α → Option (Tensor α × Linear α)
  | .r2 x =>
    match dot x l.weights with
    | some xw =>
      match bcast2 (· + ·) xw l.biases with
      | some acts => some (.r2 acts, { l with cached_activations := some acts })
      | none => none
    | none => none
  | .r1 _ => none

/-- Model of `Linear.backward`: overwrite `bias_gradients` with `np.sum(error, 0)`
(a rank-1 array), overwrite `weight_gradients` with
`np.dot(cached_activations.T, error)`, and return `np.dot(error, weights.T)`.
With no cached forward activations the `.T` attribute access on `None`
raises (`none`). -/
def Linear.backward (l : Linear α) : Tensor α → Option (Tensor α × Linear α)
  | .r2 e =>
    match l.cached_activations with
    | some c =>
      match dot (transposeRaw c) e, dot e (transposeRaw l.weights) with
      | some wg, some down =>
          some (.r2 down,
            { l with bias_gradients := .r1 (colSum e), weight_gradients := wg })
      | _, _ => none
    | none => none
  | .r1 _ => none

end Core

section Smooth

variable {α : Type} [LinearOrderedField α]

/-- State of the `Sigmoid` layer: only the cached raw input. -/
structure Sigmoid (α : Type) where
  cached_input : Option (Tensor α)
deriving DecidableEq

/-- Construction, `Sigmoid.__init__`: empty cache. -/
def Sigmoid.init : Sigmoid α := ⟨none⟩

/-- The `Sigmoid.trainable` property is `False`. -/
def Sigmoid.trainable : Bool := false

/-- Model of `Sigmoid._sigmoid` on one element: `1 / (1 + exp(-x))`, for the
environment's exponential `exp`. -/
def sigmoidEl (exp : α → α) (x : α) : α := 1 / (1 + exp (-x))

/-- Model of `Sigmoid.forward`: cache the raw input, return the elementwise
sigmoid. -/
def Sigmoid.forward (exp : α → α) (s : Sigmoid α) (x : Tensor α) :
    Option (Tensor α × Sigmoid α) :=
  some (tmap (sigmoidEl exp) x, { s with cached_input := some x })

/-- Model of `Sigmoid.backward`: `error * (sigmoid(cached) * (1 - sigmoid(cached)))`
elementwise (with numpy broadcasting); raises (`none`) when the cache is
absent or the shapes are incompatible. -/
def Sigmoid.backward (exp : α → α) (s : Sigmoid α) (error : Tensor α) :
    Option (Tensor α × Sigmoid α) :=
  match s.cached_input with
  | some c =>
    match ewise (· * ·) error (tmap (fun v => sigmoidEl exp v * (1 - sigmoidEl exp v)) c) with
    | some out => some (out, s)
    | none => none
  | none => none

/-- State of the `Tanh` layer: only the cached raw input. -/
structure Tanh (α : Type) where
  cached_input : Option (Tensor α)
deriving DecidableEq

/-- Construction, `Tanh.__init__`: empty cache. -/
def Tanh.init : Tanh α := ⟨none⟩

/-- The `Tanh.trainable` property is `False`. -/
def Tanh.trainable : Bool := false

/-- Model of `Tanh._tanh` on one element: `-1 + 2 / (1 + exp(-2x))`. -/
def tanhEl (exp : α → α) (x : α) : α := -1 + 2 / (1 + exp (-(2 * x)))

/-- Model of `Tanh.forward`: cache the raw input, return the elementwise tanh. -/
def Tanh.forward (exp : α → α) (t : Tanh α) (x : Tensor α) :
    Option (Tensor α × Tanh α) :=
  some (tmap (tanhEl exp) x, { t with cached_input := some x })

/-- Model of `Tanh.backward`: `error * (1 - tanh(cached) ** 2)` elementwise. -/
def Tanh.backward (exp : α → α) (t : Tanh α) (error : Tensor α) :
    Option (Tensor α × Tanh α) :=
  match t.cached_input with
  | some c =>
    match ewise (· * ·) error (tmap (fun v => 1 - tanhEl exp v ^ 2) c) with
    | some out => some (out, t)
    | none => none
  | none => none

end Smooth

section Core2

variable {α : Type} [LinearOrderedCommRing α]

/-- State of the `ReLU` layer: only the cached raw input. -/
structure ReLU (α : Type) where
  cached_input : Option (Tensor α)
deriving DecidableEq

/-- Construction, `ReLU.__init__`: empty cache. -/
def ReLU.init : ReLU α := ⟨none⟩

/-- The `ReLU.trainable` property is `False`. -/
def ReLU.trainable : Bool := false

/-- Model of `ReLU.forward`: cache the raw input, return `np.maximum(0, x)`. -/
def ReLU.forward (r : ReLU α) (x : Tensor α) : Option (Tensor α × ReLU α) :=
  some (tmap (fun v => max 0 v) x, { r with cached_input := some x })

/-- Model of `ReLU.backward`: `error * float(cached >= 0)` elementwise. -/
def ReLU.backward (r : ReLU α) (error : Tensor α) : Option (Tensor α × ReLU α) :=
  match r.cached_input with
  | some c =>
    match ewise (· * ·) error (tmap (fun v => if 0 ≤ v then 1 else 0) c) with
    | some out => some (out, r)
    | none => none
  | none => none

/-- One method call on a `Linear` layer, as driven by an external caller. -/
inductive Call (α : Type) where
  | fwd : Tensor α → Call α
  | bwd : Tensor α → Call α

/-- The layer state after one call: the updated state when the call
succeeds, the unchanged state when it raises. -/
def Linear.step (l : Linear α) : Call α → Linear α
  | .fwd x => match l.forward x with
    | some p => p.2
    | none => l
  | .bwd e => match l.backward e with
    | some p => p.2
    | none => l

/-- The layer state after a whole sequence of forward/backward calls. -/
def Linear.runCalls (l : Linear α) : List (Call α) → Linear α
  | [] => l
  | c :: cs => (l.step c).runCalls cs

/-- The spec's closed form for the dense forward pass:
`output[i][j] = (∑ k, x[i][k] * w[k][j]) + bs[0][j]`, the matrix product
`x · w` with the bias row broadcast across the batch dimension. -/
def denseForwardSpec (x w bs : List (List α)) (b n m : Nat) : List (List α) :=
  (List.range b).map fun i => (List.range m).map fun j =>
    (∑ k ∈ Finset.range n, entry x i k * entry w k j) + entry bs 0 j

/-- The spec's closed form for the ReLU backward pass:
`error * indicator(cached_input >= 0)` elementwise, the indicator being `1`
where the cached input was non-negative and `0` elsewhere. -/
def reluBackwardSpec (x e : List (List α)) (a b : Nat) : List (List α) :=
  (List.range a).map fun i => (List.range b).map fun j =>
    entry e i j * (if 0 ≤ entry x i j then 1 else 0)

end Core2

section SmoothSpec

variable {β : Type} [LinearOrderedField β]

/-- The spec's closed form for the sigmoid backward pass:
`error * s * (1 - s)` elementwise, with `s = 1 / (1 + exp (-cached_input))`
recomputed from the cached raw input. -/
def sigmoidBackwardSpec (exp : β → β) (x e : List (List β)) (r c : Nat) :
    List (List β) :=
  (List.range r).map fun i => (List.range c).map fun j =>
    entry e i j * (1 / (1 + exp (-entry x i j))) *
      (1 - 1 / (1 + exp (-entry x i j)))

end SmoothSpec

/-! ### Indexing and shape lemmas for the tensor operations -/

section Lemmas

variable {α : Type} [LinearOrderedCommRing α]

theorem getD_range_map {β : Type} (f : Nat → β) (n j : Nat) (d : β) :
    ((List.range n).map f).getD j d = if j < n then f j else d := by
  rw [List.getD_eq_getElem?_getD, List.getElem?_map]
  by_cases h : j < n
  · rw [List.getElem?_range h]
    simp [h]
  · rw [List.getElem?_eq_none (by simpa using Nat.le_of_not_lt h)]
    simp [h]

theorem getD_map_lt {β γ : Type} (f : β → γ) {l : List β} {i : Nat}
    (h : i < l.length) (d : γ) (d' : β) :
    (l.map f).getD i d = f (l.getD i d') := by
  rw [List.getD_eq_getElem (l.map f) d (by simpa using h),
    List.getElem_map, List.getD_eq_getElem l d' h]

theorem bidx_lt {n i : Nat} (h : i < n) : bidx n i = i := by
  unfold bidx
  split
  · omega
  · rfl

theorem bcDim_self (a : Nat) : bcDim a a = some a := by
  simp [bcDim]

theorem bcDim_one (a : Nat) : bcDim a 1 = some a := by
  unfold bcDim
  by_cases h : a = 1
  · simp [h]
  · simp [h]

theorem cols_of_rect {m : List (List α)} {r c : Nat}
    (hm : Rect m r c) (hr : 0 < r) : cols m = c := by
  obtain ⟨hlen, hrow⟩ := hm
  cases m with
  | nil => simp at hlen; omega
  | cons a l => exact hrow a (by simp)

theorem isRect_of_forall {m : List (List α)} {c : Nat}
    (h : ∀ row ∈ m, row.length = c) : isRect m c = true := by
  simpa [isRect, List.all_eq_true, beq_iff_eq] using h

theorem entry_eq_zero_of_rect {m : List (List α)} {r c : Nat}
    (hm : Rect m r c) {i j : Nat} (h : ¬(i < r ∧ j < c)) : entry m i j = 0 := by
  obtain ⟨hlen, hrow⟩ := hm
  by_cases hi : i < r
  · have hj : c ≤ j := by omega
    unfold entry
    have hrl : (m.getD i []).length = c := by
      rw [List.getD_eq_getElem m [] (by omega)]
      exact hrow _ (List.getElem_mem _)
    exact List.getD_eq_default _ _ (by omega)
  · unfold entry
    rw [List.getD_eq_default m [] (by omega)]
    simp

theorem matmulRaw_rect {x w : List (List α)} :
    Rect (matmulRaw x w) x.length (cols w) := by
  constructor
  · simp [matmulRaw]
  · intro row hrow
    simp only [matmulRaw, List.mem_map] at hrow
    obtain ⟨r, _, rfl⟩ := hrow
    simp

theorem entry_matmulRaw {x w : List (List α)} {i j : Nat}
    (hi : i < x.length) (hj : j < cols w) :
    entry (matmulRaw x w) i j =
      ∑ k ∈ Finset.range w.length, entry x i k * entry w k j := by
  unfold entry matmulRaw
  rw [getD_map_lt _ hi [] []]
  rw [getD_range_map]
  simp only [hj, if_true]
  rfl

theorem transposeRaw_rect {m : List (List α)} :
    Rect (transposeRaw m) (cols m) m.length := by
  constructor
  · simp [transposeRaw]
  · intro row hrow
    simp only [transposeRaw, List.mem_map] at hrow
    obtain ⟨r, _, rfl⟩ := hrow
    simp

theorem entry_transposeRaw {m : List (List α)} {r c : Nat}
    (hm : Rect m r c) (i j : Nat) :
    entry (transposeRaw m) i j = entry m j i := by
  by_cases hi : i < cols m
  · show ((transposeRaw m).getD i []).getD j 0 = entry m j i
    unfold transposeRaw
    rw [getD_range_map]
    simp only [hi, if_true]
    by_cases hj : j < m.length
    · rw [getD_map_lt _ hj 0 []]
      rfl
    · rw [List.getD_eq_default _ _ (by simpa using Nat.le_of_not_lt hj)]
      unfold entry
      rw [List.getD_eq_default m [] (by omega)]
      simp
  · show ((transposeRaw m).getD i []).getD j 0 = entry m j i
    have hTl : (transposeRaw m).length = cols m := (transposeRaw_rect (m := m)).1
    have h0 : (transposeRaw m).getD i [] = ([] : List α) :=
      List.getD_eq_default _ _ (by omega)
    have h1 : ([] : List α).getD j 0 = 0 := List.getD_eq_default _ _ (by simp)
    rw [h0, h1, entry_eq_zero_of_rect hm (by
      rintro ⟨hjr, hic⟩
      have := cols_of_rect hm (by omega)
      omega)]

theorem dot_eq_some {x w : List (List α)} {b n m : Nat}
    (hx : Rect x b n) (hw : Rect w n m) (hn : 0 < n) :
    dot x w = some (matmulRaw x w) := by
  have h1 : isRect x w.length = true := by
    apply isRect_of_forall
    rw [hw.1]
    exact hx.2
  have h2 : isRect w (cols w) = true := by
    apply isRect_of_forall
    rw [cols_of_rect hw hn]
    exact hw.2
  simp [dot, h1, h2]

theorem colSum_length {m : List (List α)} : (colSum m).length = cols m := by
  simp [colSum]

theorem colSum_getD {m : List (List α)} {j : Nat} (hj : j < cols m) :
    (colSum m).getD j 0 = ∑ i ∈ Finset.range m.length, entry m i j := by
  unfold colSum
  rw [getD_range_map]
  simp [hj]

theorem bcast2_eq_of_rect {f : α → α → α} {x y : List (List α)} {r c : Nat}
    (hx : Rect x r c) (hy : Rect y r c) :
    bcast2 f x y =
      some ((List.range r).map fun i => (List.range c).map fun j =>
        f (entry x i j) (entry y i j)) := by
  rcases Nat.eq_zero_or_pos r with hr | hr
  · subst hr
    obtain rfl : x = [] := List.length_eq_zero.mp hx.1
    obtain rfl : y = [] := List.length_eq_zero.mp hy.1
    simp [bcast2, isRect, cols, bcDim]
  · have hcx : cols x = c := cols_of_rect hx hr
    have hcy : cols y = c := cols_of_rect hy hr
    have h1 : isRect x c = true := isRect_of_forall hx.2
    have h2 : isRect y c = true := isRect_of_forall hy.2
    simp only [bcast2, hcx, hcy, hx.1, hy.1, h1, h2, Bool.and_self, if_true,
      bcDim_self]
    congr 1
    apply List.map_congr_left
    intro i hi
    apply List.map_congr_left
    intro j hj
    rw [List.mem_range] at hi
    rw [List.mem_range] at hj
    rw [bidx_lt hi, bidx_lt hj]

theorem bcast2_bias {f : α → α → α} {x y : List (List α)} {b m : Nat}
    (hx : Rect x b m) (hy : Rect y 1 m) (hb : 0 < b) :
    bcast2 f x y =
      some ((List.range b).map fun i => (List.range m).map fun j =>
        f (entry x i j) (entry y 0 j)) := by
  have hcx : cols x = m := cols_of_rect hx hb
  have hcy : cols y = m := cols_of_rect hy (by omega)
  have h1 : isRect x m = true := isRect_of_forall hx.2
  have h2 : isRect y m = true := isRect_of_forall hy.2
  simp only [bcast2, hcx, hcy, hx.1, hy.1, h1, h2, Bool.and_self, if_true,
    bcDim_one, bcDim_self]
  congr 1
  apply List.map_congr_left
  intro i hi
  apply List.map_congr_left
  intro j hj
  rw [List.mem_range] at hi
  rw [List.mem_range] at hj
  rw [bidx_lt hi, bidx_lt hj]
  simp [bidx]

theorem cols_map_map {β : Type} (f : α → β) (m : List (List α)) :
    cols (m.map (List.map f)) = cols m := by
  cases m <;> simp [cols]

theorem rect_map_map {β : Type} (f : α → β) {m : List (List α)} {r c : Nat}
    (hm : Rect m r c) : Rect (m.map (List.map f)) r c := by
  obtain ⟨hlen, hrow⟩ := hm
  constructor
  · simpa using hlen
  · intro row hrow'
    simp only [List.mem_map] at hrow'
    obtain ⟨q, hq, rfl⟩ := hrow'
    simpa using hrow q hq

theorem entry_map_map (f : α → α) {m : List (List α)} {r c : Nat}
    (hm : Rect m r c) {i j : Nat} (hi : i < r) (hj : j < c) :
    entry (m.map (List.map f)) i j = f (entry m i j) := by
  obtain ⟨hlen, hrow⟩ := hm
  unfold entry
  rw [getD_map_lt _ (by omega) [] []]
  rw [getD_map_lt f _ 0 0]
  rw [List.getD_eq_getElem m [] (by omega)]
  exact lt_of_lt_of_eq hj (hrow _ (List.getElem_mem _)).symm

theorem rect_matmulRaw {x w : List (List α)} {b n m : Nat}
    (hx : Rect x b n) (hw : Rect w n m) (hn : 0 < n) :
    Rect (matmulRaw x w) b m := by
  have h := matmulRaw_rect (x := x) (w := w)
  rw [hx.1, cols_of_rect hw hn] at h
  exact h

theorem forward_eq (l : Linear α) {x : List (List α)} {b n m : Nat}
    (hx : Rect x b n) (hw : Rect l.weights n m) (hbs : Rect l.biases 1 m)
    (hb : 0 < b) (hn : 0 < n) :
    l.forward (.r2 x) =
      some (.r2 (denseForwardSpec x l.weights l.biases b n m),
        { l with
          cached_activations := some (denseForwardSpec x l.weights l.biases b n m) }) := by
  have hd : dot x l.weights = some (matmulRaw x l.weights) := dot_eq_some hx hw hn
  have hmm : Rect (matmulRaw x l.weights) b m := rect_matmulRaw hx hw hn
  have hbc := bcast2_bias (f := (· + ·)) hmm hbs hb
  have hR : ((List.range b).map fun i => (List.range m).map fun j =>
      entry (matmulRaw x l.weights) i j + entry l.biases 0 j) =
      denseForwardSpec x l.weights l.biases b n m := by
    unfold denseForwardSpec
    apply List.map_congr_left
    intro i hi
    apply List.map_congr_left
    intro j hj
    rw [List.mem_range] at hi
    rw [List.mem_range] at hj
    rw [entry_matmulRaw (by rw [hx.1]; omega) (by rw [cols_of_rect hw hn]; omega), hw.1]
  rw [hR] at hbc
  simp only [Linear.forward, hd, hbc]

theorem backward_eq (l : Linear α) {c e : List (List α)} {b n m : Nat}
    (hc : l.cached_activations = some c)
    (hcr : Rect c b m) (her : Rect e b m) (hw : Rect l.weights n m)
    (hb : 0 < b) (hn : 0 < n) (hm : 0 < m) :
    l.backward (.r2 e) =
      some (.r2 (matmulRaw e (transposeRaw l.weights)),
        { l with bias_gradients := .r1 (colSum e),
                 weight_gradients := matmulRaw (transposeRaw c) e }) := by
  have hct : Rect (transposeRaw c) m b := by
    have h := transposeRaw_rect (m := c)
    rw [hcr.1, cols_of_rect hcr hb] at h
    exact h
  have hwt : Rect (transposeRaw l.weights) m n := by
    have h := transposeRaw_rect (m := l.weights)
    rw [hw.1, cols_of_rect hw hn] at h
    exact h
  have hd1 : dot (transposeRaw c) e = some (matmulRaw (transposeRaw c) e) :=
    dot_eq_some hct her hb
  have hd2 : dot e (transposeRaw l.weights) =
      some (matmulRaw e (transposeRaw l.weights)) :=
    dot_eq_some her hwt hm
  simp only [Linear.backward, hc, hd1, hd2]

theorem rect_transposeRaw {w : List (List α)} {n m : Nat}
    (hw : Rect w n m) (hn : 0 < n) : Rect (transposeRaw w) m n := by
  have h := transposeRaw_rect (m := w)
  rw [hw.1, cols_of_rect hw hn] at h
  exact h

theorem rect_rangeMap {g : Nat → Nat → α} {b m : Nat} :
    Rect ((List.range b).map fun i => (List.range m).map fun j => g i j) b m := by
  constructor
  · simp
  · intro row hrow
    simp only [List.mem_map] at hrow
    obtain ⟨i, _, rfl⟩ := hrow
    simp

theorem entry_rangeMap {g : Nat → Nat → α} {b m : Nat} {i j : Nat}
    (hi : i < b) (hj : j < m) :
    entry ((List.range b).map fun i => (List.range m).map fun j => g i j) i j =
      g i j := by
  unfold entry
  rw [getD_range_map]
  simp only [hi, if_true]
  rw [getD_range_map]
  simp [hj]

theorem forward_params {l : Linear α} {t : Tensor α} {p : Tensor α × Linear α}
    (h : l.forward t = some p) :
    p.2.weights = l.weights ∧ p.2.biases = l.biases ∧
      p.2.weight_gradients = l.weight_gradients ∧
      p.2.bias_gradients = l.bias_gradients := by
  cases t with
  | r1 v => simp [Linear.forward] at h
  | r2 x =>
    simp only [Linear.forward] at h
    split at h
    · split at h
      · simp only [Option.some.injEq] at h
        rw [← h]
        exact ⟨rfl, rfl, rfl, rfl⟩
      · simp at h
    · simp at h

theorem backward_params {l : Linear α} {t : Tensor α} {p : Tensor α × Linear α}
    (h : l.backward t = some p) :
    p.2.weights = l.weights ∧ p.2.biases = l.biases ∧
      p.2.cached_activations = l.cached_activations := by
  cases t with
  | r1 v => simp [Linear.backward] at h
  | r2 e =>
    simp only [Linear.backward] at h
    split at h
    · split at h
      · simp only [Option.some.injEq] at h
        rw [← h]
        exact ⟨rfl, rfl, rfl⟩
      · simp at h
    · simp at h

theorem backward_eq_general (l : Linear α) {e2 c wg down : List (List α)}
    (hc : l.cached_activations = some c)
    (h1 : dot (transposeRaw c) e2 = some wg)
    (h2 : dot e2 (transposeRaw l.weights) = some down) :
    l.backward (.r2 e2) =
      some (.r2 down,
        { l with bias_gradients := .r1 (colSum e2), weight_gradients := wg }) := by
  simp only [Linear.backward, hc, h1, h2]

theorem backward_inv {l : Linear α} {e2 : List (List α)} {g : Tensor α}
    {l' : Linear α} (h : l.backward (.r2 e2) = some (g, l')) :
    ∃ c wg down, l.cached_activations = some c ∧
      dot (transposeRaw c) e2 = some wg ∧
      dot e2 (transposeRaw l.weights) = some down ∧
      g = .r2 down ∧
      l' = { l with bias_gradients := .r1 (colSum e2), weight_gradients := wg } := by
  simp only [Linear.backward] at h
  split at h
  · rename_i c heq
    split at h
    · rename_i wg down h1 h2
      simp only [Option.some.injEq, Prod.mk.injEq] at h
      exact ⟨c, wg, down, heq, h1, h2, h.1.symm, h.2.symm⟩
    · simp at h
  · simp at h

theorem ewise_tmap_mismatch (g : α → α) {c e : List (List α)} {a1 c1 a2 c2 : Nat}
    (hc : Rect c a1 c1) (he : Rect e a2 c2) (ha1 : 0 < a1) (ha2 : 0 < a2)
    (hbc : bcDim a2 a1 = none ∨ bcDim c2 c1 = none) :
    ewise (· * ·) (.r2 e) (tmap g (.r2 c)) = none := by
  simp only [tmap, ewise, Option.map_eq_none]
  unfold bcast2
  split
  · rw [he.1, cols_of_rect he ha2]
    rw [show (c.map (List.map g)).length = a1 by simp [hc.1]]
    rw [show cols (c.map (List.map g)) = c1 by
      rw [cols_map_map]
      exact cols_of_rect hc ha1]
    rcases hbc with h | h
    · rw [h]
      cases bcDim c2 c1 <;> rfl
    · rw [h]
      cases bcDim a2 a1 <;> rfl
  · rfl

theorem step_params (l : Linear α) (c : Call α) :
    (l.step c).weights = l.weights ∧ (l.step c).biases = l.biases := by
  cases c with
  | fwd x =>
    simp only [Linear.step]
    cases h : l.forward x with
    | none => exact ⟨rfl, rfl⟩
    | some p =>
      have hp := forward_params h
      exact ⟨hp.1, hp.2.1⟩
  | bwd e =>
    simp only [Linear.step]
    cases h : l.backward e with
    | none => exact ⟨rfl, rfl⟩
    | some p =>
      have hp := backward_params h
      exact ⟨hp.1, hp.2.1⟩

end Lemmas

/-! ### Claim theorems -/

/-- C4: for every DenseLayer with weights `W` of shape (in_size, out_size) and
biases `b` of shape (1, out_size), and every input of shape (batch, in_size),
`forward` returns `x · W + b` with the bias row broadcast across the batch
dimension — entry (i, j) of the output is `(∑ k, x[i][k]·W[k][j]) + b[0][j]` —
and caches exactly that result. -/
theorem c4_dense_forward_affine {α : Type} [LinearOrderedCommRing α]
    (l : Linear α) {x : List (List α)} {b n m : Nat}
    (hx : Rect x b n) (hw : Rect l.weights n m) (hbs : Rect l.biases 1 m)
    (hb : 0 < b) (hn : 0 < n) :
    l.forward (.r2 x) =
      some (.r2 (denseForwardSpec x l.weights l.biases b n m),
        { l with
          cached_activations := some (denseForwardSpec x l.weights l.biases b n m) }) ∧
    Rect (denseForwardSpec x l.weights l.biases b n m) b m ∧
    ∀ i j, i < b → j < m →
      entry (denseForwardSpec x l.weights l.biases b n m) i j =
        (∑ k ∈ Finset.range n, entry x i k * entry l.weights k j) +
          entry l.biases 0 j := by
  refine ⟨forward_eq l hx hw hbs hb hn, ?_, ?_⟩
  · unfold denseForwardSpec
    exact rect_rangeMap
  · intro i j hi hj
    unfold denseForwardSpec
    exact entry_rangeMap hi hj

/-- Witness for C4: the spec's end-to-end scenario — in_size=2, out_size=1,
weights [[1],[2]], biases [[0]], `forward [[1, 1]]` yields `[[3]]` and caches
it. -/
theorem c4_witness :
    (Linear.init ([[1],[2]] : List (List ℤ)) 1).forward (.r2 [[1, 1]]) =
      some (.r2 [[3]],
        { weights := [[1],[2]], biases := [[0]], cached_activations := some [[3]],
          weight_gradients := [[0],[0]], bias_gradients := .r2 [[0]] }) := by
  have h := c4_dense_forward_affine (Linear.init ([[1],[2]] : List (List ℤ)) 1)
    (show Rect [[1, 1]] 1 2 by decide)
    (show Rect (Linear.init ([[1],[2]] : List (List ℤ)) 1).weights 2 1 by decide)
    (show Rect (Linear.init ([[1],[2]] : List (List ℤ)) 1).biases 1 1 by decide)
    (by decide) (by decide)
  exact h.1.trans (by decide)

/-- C2: for every DenseLayer with a cached forward result and weights `W` of
shape (in_size, out_size), `backward` on an upstream gradient of shape
(batch, out_size) returns `error · Wᵀ`, of shape (batch, in_size), with
entry (i, j) equal to `∑ k, error[i][k]·W[j][k]`. -/
theorem c2_dense_downstream_gradient {α : Type} [LinearOrderedCommRing α]
    (l : Linear α) {c e : List (List α)} {b n m : Nat}
    (hc : l.cached_activations = some c) (hcr : Rect c b m) (her : Rect e b m)
    (hw : Rect l.weights n m) (hb : 0 < b) (hn : 0 < n) (hm : 0 < m) :
    l.backward (.r2 e) =
      some (.r2 (matmulRaw e (transposeRaw l.weights)),
        { l with bias_gradients := .r1 (colSum e),
                 weight_gradients := matmulRaw (transposeRaw c) e }) ∧
    Rect (matmulRaw e (transposeRaw l.weights)) b n ∧
    ∀ i j, i < b → j < n →
      entry (matmulRaw e (transposeRaw l.weights)) i j =
        ∑ k ∈ Finset.range m, entry e i k * entry l.weights j k := by
  have hwt : Rect (transposeRaw l.weights) m n := rect_transposeRaw hw hn
  refine ⟨backward_eq l hc hcr her hw hb hn hm, rect_matmulRaw her hwt hm, ?_⟩
  intro i j hi hj
  rw [entry_matmulRaw (by rw [her.1]; omega) (by rw [cols_of_rect hwt hm]; omega)]
  rw [hwt.1]
  exact Finset.sum_congr rfl fun k _ => by rw [entry_transposeRaw hw]

/-- Witness for C2: the spec's scenario — after `forward [[1, 1]]` on the
layer with weights [[1],[2]] and biases [[0]], `backward [[1]]` returns
`[[1, 2]]` (and overwrites the gradient buffers). -/
theorem c2_witness :
    ({ weights := [[1],[2]], biases := [[0]], cached_activations := some [[3]],
       weight_gradients := [[0],[0]], bias_gradients := .r2 [[0]] } : Linear ℤ).backward
        (.r2 [[1]]) =
      some (.r2 [[1, 2]],
        { weights := [[1],[2]], biases := [[0]], cached_activations := some [[3]],
          weight_gradients := [[3]], bias_gradients := .r1 [1] }) := by
  have h := c2_dense_downstream_gradient
    ({ weights := [[1],[2]], biases := [[0]], cached_activations := some [[3]],
       weight_gradients := [[0],[0]], bias_gradients := .r2 [[0]] } : Linear ℤ)
    (c := [[3]]) (e := [[1]]) (b := 1) (n := 2) (m := 1)
    (by decide) (by decide) (by decide) (by decide) (by decide) (by decide) (by decide)
  exact h.1.trans (by decide)

/-- Counterexample for C1: with in_size=2, out_size=1, after `forward [[1,1]]`
the call `backward [[1]]` stores a weight-gradient matrix of shape (1, 1) —
`cached_outputᵀ · error` has shape (out_size, out_size) — not the claimed
shape (in_size, out_size) = (2, 1). -/
theorem c1_counterexample :
    ((((Linear.init ([[1],[2]] : List (List ℚ)) 1).forward (.r2 [[1, 1]])).bind
        fun p => p.2.backward (.r2 [[1]])).map
      fun p => (p.2.weight_gradients.length, cols p.2.weight_gradients)) =
        some (1, 1) ∧
    ((1 : Nat), (1 : Nat)) ≠ ((2 : Nat), (1 : Nat)) :=
  ⟨by decide, by decide⟩

/-- C1 as amended: `backward` overwrites `weight_gradients` with
`cached_forward_outputᵀ · error` — entry (i, j) is
`∑ k over the batch, cached[k][i]·error[k][j]` — but its shape is
(out_size, out_size), not (in_size, out_size). -/
theorem c1_dense_weight_gradients {α : Type} [LinearOrderedCommRing α]
    (l : Linear α) {c e : List (List α)} {b n m : Nat}
    (hc : l.cached_activations = some c) (hcr : Rect c b m) (her : Rect e b m)
    (hw : Rect l.weights n m) (hb : 0 < b) (hn : 0 < n) (hm : 0 < m) :
    l.backward (.r2 e) =
      some (.r2 (matmulRaw e (transposeRaw l.weights)),
        { l with bias_gradients := .r1 (colSum e),
                 weight_gradients := matmulRaw (transposeRaw c) e }) ∧
    Rect (matmulRaw (transposeRaw c) e) m m ∧
    ∀ i j, i < m → j < m →
      entry (matmulRaw (transposeRaw c) e) i j =
        ∑ k ∈ Finset.range b, entry c k i * entry e k j := by
  have hct : Rect (transposeRaw c) m b := rect_transposeRaw hcr hb
  refine ⟨backward_eq l hc hcr her hw hb hn hm, rect_matmulRaw hct her hb, ?_⟩
  intro i j hi hj
  rw [entry_matmulRaw (by rw [hct.1]; omega) (by rw [cols_of_rect her hb]; omega)]
  rw [her.1]
  exact Finset.sum_congr rfl fun k _ => by rw [entry_transposeRaw hcr]

/-- Witness for C1 (amended): in the 2-input, 1-output scenario the stored
weight gradient is `[[3]]` = `[[3]]ᵀ · [[1]]`, a (1, 1) matrix. -/
theorem c1_witness :
    (({ weights := [[1],[2]], biases := [[0]], cached_activations := some [[3]],
        weight_gradients := [[0],[0]], bias_gradients := .r2 [[0]] } : Linear ℤ).backward
          (.r2 [[1]])).map (fun p => p.2.weight_gradients) = some [[3]] := by
  have h := c1_dense_weight_gradients
    ({ weights := [[1],[2]], biases := [[0]], cached_activations := some [[3]],
       weight_gradients := [[0],[0]], bias_gradients := .r2 [[0]] } : Linear ℤ)
    (c := [[3]]) (e := [[1]]) (b := 1) (n := 2) (m := 1)
    (by decide) (by decide) (by decide) (by decide) (by decide) (by decide) (by decide)
  rw [h.1]
  decide

/-- Counterexample for C3: after `forward [[1,1]]` and `backward [[1]]` on the
2-input, 1-output layer, the stored `bias_gradients` is the rank-1 array
`[1]` of shape (out_size,), not a (1, out_size) row vector of shape
(1, out_size) like `biases`. -/
theorem c3_counterexample :
    ((((Linear.init ([[1],[2]] : List (List ℚ)) 1).forward (.r2 [[1, 1]])).bind
        fun p => p.2.backward (.r2 [[1]])).map
      fun p => (p.2.bias_gradients.shape, p.2.biases.length, cols p.2.biases)) =
        some ([1], 1, 1) ∧
    ([1] : List Nat) ≠ [1, 1] :=
  ⟨by decide, by decide⟩

/-- C3 as amended: after `backward error` the stored `bias_gradients` equal
the column-wise sum of `error` over the batch axis, but as a rank-1 array of
shape (out_size,), not a (1, out_size) row vector. -/
theorem c3_dense_bias_gradients {α : Type} [LinearOrderedCommRing α]
    (l : Linear α) {c e : List (List α)} {b n m : Nat}
    (hc : l.cached_activations = some c) (hcr : Rect c b m) (her : Rect e b m)
    (hw : Rect l.weights n m) (hb : 0 < b) (hn : 0 < n) (hm : 0 < m) :
    l.backward (.r2 e) =
      some (.r2 (matmulRaw e (transposeRaw l.weights)),
        { l with bias_gradients := .r1 (colSum e),
                 weight_gradients := matmulRaw (transposeRaw c) e }) ∧
    (colSum e).length = m ∧
    Tensor.shape (Tensor.r1 (colSum e)) = [m] ∧
    ∀ j, j < m →
      (colSum e).getD j 0 = ∑ i ∈ Finset.range b, entry e i j := by
  have hce : cols e = m := cols_of_rect her hb
  refine ⟨backward_eq l hc hcr her hw hb hn hm, ?_, ?_, ?_⟩
  · rw [colSum_length, hce]
  · simp [Tensor.shape, colSum_length, hce]
  · intro j hj
    rw [colSum_getD (by omega), her.1]

/-- C5: on every freshly constructed layer (DenseLayer, Sigmoid, Tanh, ReLU)
whose cache is still empty, `backward` with any upstream gradient fails
(the absent cache is hit) instead of computing a result from garbage or
default data. -/
theorem c5_backward_before_forward_fails {α : Type} [LinearOrderedCommRing α]
    {β : Type} [LinearOrderedField β]
    (w : List (List α)) (out : Nat) (e : Tensor α) (exp : β → β) (f : Tensor β) :
    (Linear.init w out).backward e = none ∧
    Sigmoid.backward exp Sigmoid.init f = none ∧
    Tanh.backward exp Tanh.init f = none ∧
    ReLU.backward ReLU.init e = none := by
  refine ⟨?_, ?_, ?_, ?_⟩
  · cases e <;> simp [Linear.backward, Linear.init]
  · simp [Sigmoid.backward, Sigmoid.init]
  · simp [Tanh.backward, Tanh.init]
  · simp [ReLU.backward, ReLU.init]

/-- C6: a DenseLayer `forward` whose input's feature dimension differs from
the configured in_size fails (`np.dot` raises), and every elementwise layer's
(Sigmoid, Tanh, ReLU) `backward` whose upstream error shape is not
broadcast-compatible with the cached input's shape fails — neither is
silently truncated into a result. -/
theorem c6_shape_mismatch_fails {α : Type} [LinearOrderedCommRing α]
    {β : Type} [LinearOrderedField β] :
    (∀ (l : Linear α) (x : List (List α)) (b n : Nat), Rect x b n → 0 < b →
      n ≠ l.weights.length → l.forward (.r2 x) = none) ∧
    (∀ (exp : β → β) (c e : List (List β)) (a1 c1 a2 c2 : Nat),
      Rect c a1 c1 → Rect e a2 c2 → 0 < a1 → 0 < a2 →
      (bcDim a2 a1 = none ∨ bcDim c2 c1 = none) →
      Sigmoid.backward exp ⟨some (.r2 c)⟩ (.r2 e) = none) ∧
    (∀ (exp : β → β) (c e : List (List β)) (a1 c1 a2 c2 : Nat),
      Rect c a1 c1 → Rect e a2 c2 → 0 < a1 → 0 < a2 →
      (bcDim a2 a1 = none ∨ bcDim c2 c1 = none) →
      Tanh.backward exp ⟨some (.r2 c)⟩ (.r2 e) = none) ∧
    (∀ (c e : List (List α)) (a1 c1 a2 c2 : Nat),
      Rect c a1 c1 → Rect e a2 c2 → 0 < a1 → 0 < a2 →
      (bcDim a2 a1 = none ∨ bcDim c2 c1 = none) →
      ReLU.backward ⟨some (.r2 c)⟩ (.r2 e) = none) := by
  refine ⟨?_, ?_, ?_, ?_⟩
  · intro l x b n hx hb hne
    have hfalse : isRect x l.weights.length = false := by
      cases x with
      | nil =>
        obtain ⟨h1, _⟩ := hx
        simp at h1
        omega
      | cons r rs =>
        have hr : r.length = n := hx.2 r (by simp)
        simp only [isRect, List.all_cons, Bool.and_eq_false_iff]
        exact Or.inl (beq_eq_false_iff_ne.mpr (by omega))
    simp [Linear.forward, dot, hfalse]
  · intro exp c e a1 c1 a2 c2 hc he ha1 ha2 hbc
    have hew := ewise_tmap_mismatch
      (fun v => sigmoidEl exp v * (1 - sigmoidEl exp v)) hc he ha1 ha2 hbc
    simp [Sigmoid.backward, hew]
  · intro exp c e a1 c1 a2 c2 hc he ha1 ha2 hbc
    have hew := ewise_tmap_mismatch
      (fun v => 1 - tanhEl exp v ^ 2) hc he ha1 ha2 hbc
    simp [Tanh.backward, hew]
  · intro c e a1 c1 a2 c2 hc he ha1 ha2 hbc
    have hew := ewise_tmap_mismatch
      (fun v => if 0 ≤ v then (1 : α) else 0) hc he ha1 ha2 hbc
    simp [ReLU.backward, hew]

/-- Witness for C6: a forward with 3 features into a 2-input layer fails, and
for each of Sigmoid, Tanh and ReLU a backward with error shape (1, 3) against
a cached (2, 2) input fails. -/
theorem c6_witness :
    (Linear.init ([[1],[2]] : List (List ℚ)) 1).forward (.r2 [[1, 1, 1]]) = none ∧
    Sigmoid.backward (fun v : ℚ => -v) ⟨some (.r2 [[1, 2], [3, 4]])⟩
      (.r2 [[1, 2, 3]]) = none ∧
    Tanh.backward (fun v : ℚ => -v) ⟨some (.r2 [[1, 2], [3, 4]])⟩
      (.r2 [[1, 2, 3]]) = none ∧
    ReLU.backward (⟨some (.r2 [[1, 2], [3, 4]])⟩ : ReLU ℚ)
      (.r2 [[1, 2, 3]]) = none := by
  have h := c6_shape_mismatch_fails (α := ℚ) (β := ℚ)
  exact ⟨h.1 (Linear.init [[1],[2]] 1) [[1, 1, 1]] 1 3 (by decide) (by decide) (by decide),
    h.2.1 (fun v => -v) [[1, 2], [3, 4]] [[1, 2, 3]] 2 2 1 3
      (by decide) (by decide) (by decide) (by decide) (Or.inr (by decide)),
    h.2.2.1 (fun v => -v) [[1, 2], [3, 4]] [[1, 2, 3]] 2 2 1 3
      (by decide) (by decide) (by decide) (by decide) (Or.inr (by decide)),
    h.2.2.2 [[1, 2], [3, 4]] [[1, 2, 3]] 2 2 1 3
      (by decide) (by decide) (by decide) (by decide) (Or.inr (by decide))⟩

/-- C9: neither `forward` nor `backward` ever modifies a DenseLayer's weights
or biases — after any sequence of forward/backward calls (failures leaving
the state unchanged) both equal their values at construction. -/
theorem c9_dense_params_never_updated {α : Type} [LinearOrderedCommRing α]
    (l : Linear α) (cs : List (Call α)) :
    (l.runCalls cs).weights = l.weights ∧ (l.runCalls cs).biases = l.biases := by
  induction cs generalizing l with
  | nil => exact ⟨rfl, rfl⟩
  | cons c cs ih =>
    simp only [Linear.runCalls]
    have hs := step_params l c
    have hi := ih (l.step c)
    exact ⟨hi.1.trans hs.1, hi.2.trans hs.2⟩

/-- C10: after one successful forward, `backward` is repeatable and
idempotent on layer state — a second `backward` with the same upstream
gradient returns the same downstream gradient and leaves the layer state
fixed (for the elementwise layers the state is not even touched). -/
theorem c10_backward_idempotent {α : Type} [LinearOrderedCommRing α]
    {β : Type} [LinearOrderedField β] :
    (∀ (l : Linear α) (e g : Tensor α) (l' : Linear α),
      l.backward e = some (g, l') → l'.backward e = some (g, l')) ∧
    (∀ (exp : β → β) (s : Sigmoid β) (e g : Tensor β) (s' : Sigmoid β),
      Sigmoid.backward exp s e = some (g, s') →
        s' = s ∧ Sigmoid.backward exp s' e = some (g, s')) ∧
    (∀ (exp : β → β) (t : Tanh β) (e g : Tensor β) (t' : Tanh β),
      Tanh.backward exp t e = some (g, t') →
        t' = t ∧ Tanh.backward exp t' e = some (g, t')) ∧
    (∀ (r : ReLU α) (e g : Tensor α) (r' : ReLU α),
      ReLU.backward r e = some (g, r') → r' = r ∧ ReLU.backward r' e = some (g, r')) := by
  refine ⟨?_, ?_, ?_, ?_⟩
  · intro l e g l' h
    cases e with
    | r1 v => simp [Linear.backward] at h
    | r2 e2 =>
      obtain ⟨c, wg, down, hc, h1, h2, hg, hl⟩ := backward_inv h
      subst hg
      subst hl
      exact backward_eq_general _ hc h1 h2
  · intro exp s e g s' h
    simp only [Sigmoid.backward] at h
    split at h
    · rename_i c heq
      split at h
      · rename_i out hew
        simp only [Option.some.injEq, Prod.mk.injEq] at h
        obtain ⟨hg, hs⟩ := h
        subst hg
        subst hs
        exact ⟨rfl, by simp [Sigmoid.backward, heq, hew]⟩
      · simp at h
    · simp at h
  · intro exp t e g t' h
    simp only [Tanh.backward] at h
    split at h
    · rename_i c heq
      split at h
      · rename_i out hew
        simp only [Option.some.injEq, Prod.mk.injEq] at h
        obtain ⟨hg, ht⟩ := h
        subst hg
        subst ht
        exact ⟨rfl, by simp [Tanh.backward, heq, hew]⟩
      · simp at h
    · simp at h
  · intro r e g r' h
    simp only [ReLU.backward] at h
    split at h
    · rename_i c heq
      split at h
      · rename_i out hew
        simp only [Option.some.injEq, Prod.mk.injEq] at h
        obtain ⟨hg, hr⟩ := h
        subst hg
        subst hr
        exact ⟨rfl, by simp [ReLU.backward, heq, hew]⟩
      · simp at h
    · simp at h

/-- Witness for C10: on the 2-input dense layer after `forward [[1, 1]]`,
`backward [[1]]` returns `[[1, 2]]` with updated gradient buffers, and a
second identical `backward` returns the same result and the same state. -/
theorem c10_witness :
    ({ weights := [[1],[2]], biases := [[0]], cached_activations := some [[3]],
       weight_gradients := [[0],[0]], bias_gradients := .r2 [[0]] } : Linear ℤ).backward
        (.r2 [[1]]) =
      some (.r2 [[1, 2]],
        { weights := [[1],[2]], biases := [[0]], cached_activations := some [[3]],
          weight_gradients := [[3]], bias_gradients := .r1 [1] }) ∧
    ({ weights := [[1],[2]], biases := [[0]], cached_activations := some [[3]],
       weight_gradients := [[3]], bias_gradients := .r1 [1] } : Linear ℤ).backward
        (.r2 [[1]]) =
      some (.r2 [[1, 2]],
        { weights := [[1],[2]], biases := [[0]], cached_activations := some [[3]],
          weight_gradients := [[3]], bias_gradients := .r1 [1] }) :=
  ⟨by decide,
    (c10_backward_idempotent (α := ℤ) (β := ℚ)).1
      ({ weights := [[1],[2]], biases := [[0]], cached_activations := some [[3]],
         weight_gradients := [[0],[0]], bias_gradients := .r2 [[0]] } : Linear ℤ)
      (.r2 [[1]]) (.r2 [[1, 2]])
      ({ weights := [[1],[2]], biases := [[0]], cached_activations := some [[3]],
         weight_gradients := [[3]], bias_gradients := .r1 [1] } : Linear ℤ)
      (by decide)⟩

/-- C8: ReLU is piecewise per element — `forward` returns `max(0, x)` and
caches the raw input; `backward` multiplies the error by the indicator of
`cached_input >= 0`, so an element with x > 0 passes both value and gradient
unchanged, x < 0 zeroes both, and at exactly x = 0 the gradient still passes
through (`error * 1`). -/
theorem c8_relu_piecewise {α : Type} [LinearOrderedCommRing α]
    (r0 : ReLU α) {x e : List (List α)} {a b : Nat}
    (hx : Rect x a b) (he : Rect e a b) :
    ReLU.forward r0 (.r2 x) =
      some (.r2 (x.map (List.map fun v => max 0 v)), ⟨some (.r2 x)⟩) ∧
    ReLU.backward ⟨some (.r2 x)⟩ (.r2 e) =
      some (.r2 (reluBackwardSpec x e a b), ⟨some (.r2 x)⟩) ∧
    ∀ i j, i < a → j < b →
      (0 < entry x i j →
        entry (x.map (List.map fun v => max 0 v)) i j = entry x i j ∧
        entry (reluBackwardSpec x e a b) i j = entry e i j) ∧
      (entry x i j < 0 →
        entry (x.map (List.map fun v => max 0 v)) i j = 0 ∧
        entry (reluBackwardSpec x e a b) i j = 0) ∧
      (entry x i j = 0 →
        entry (reluBackwardSpec x e a b) i j = entry e i j * 1) := by
  have hb2 := bcast2_eq_of_rect (f := (· * ·)) he
    (rect_map_map (fun v => if 0 ≤ v then (1 : α) else 0) hx)
  have hRE : ((List.range a).map fun i => (List.range b).map fun j =>
      entry e i j *
        entry (x.map (List.map fun v => if 0 ≤ v then (1 : α) else 0)) i j) =
      reluBackwardSpec x e a b := by
    unfold reluBackwardSpec
    apply List.map_congr_left
    intro i hi
    apply List.map_congr_left
    intro j hj
    rw [List.mem_range] at hi
    rw [List.mem_range] at hj
    rw [entry_map_map _ hx hi hj]
  rw [hRE] at hb2
  refine ⟨rfl, ?_, ?_⟩
  · simp [ReLU.backward, tmap, ewise, hb2]
  · intro i j hi hj
    have hfw := entry_map_map (fun v => max 0 v) hx hi hj
    have hbw : entry (reluBackwardSpec x e a b) i j =
        entry e i j * (if 0 ≤ entry x i j then 1 else 0) := by
      unfold reluBackwardSpec
      exact entry_rangeMap hi hj
    refine ⟨fun hpos => ⟨?_, ?_⟩, fun hneg => ⟨?_, ?_⟩, fun hz => ?_⟩
    · rw [hfw]
      exact max_eq_right (le_of_lt hpos)
    · rw [hbw, if_pos (le_of_lt hpos), mul_one]
    · rw [hfw]
      exact max_eq_left (le_of_lt hneg)
    · rw [hbw, if_neg (not_le.mpr hneg), mul_zero]
    · rw [hbw, if_pos (le_of_eq hz.symm)]

/-- Witness for C8: on cached input [[-1, 0, 2]] the forward pass yields
[[0, 0, 2]] and, with upstream error [[5, 7, 9]], the backward pass yields
[[0, 7, 9]] — zero below 0, pass-through at 0 and above. -/
theorem c8_witness :
    ReLU.forward (⟨none⟩ : ReLU ℤ) (.r2 [[-1, 0, 2]]) =
      some (.r2 [[0, 0, 2]], ⟨some (.r2 [[-1, 0, 2]])⟩) ∧
    ReLU.backward (⟨some (.r2 [[-1, 0, 2]])⟩ : ReLU ℤ) (.r2 [[5, 7, 9]]) =
      some (.r2 [[0, 7, 9]], ⟨some (.r2 [[-1, 0, 2]])⟩) := by
  have h := c8_relu_piecewise (⟨none⟩ : ReLU ℤ)
    (show Rect [[-1, 0, 2]] 1 3 by decide) (show Rect [[5, 7, 9]] 1 3 by decide)
  exact ⟨h.1.trans (by decide), h.2.1.trans (by decide)⟩

/-- C7: `Sigmoid.forward` returns elementwise `1 / (1 + exp (-x))` and caches
the raw input; a subsequent `backward` recomputes `s = sigmoid(cached_input)`
and returns `error * s * (1 - s)` elementwise.  Stated for an arbitrary
exponential primitive `exp`, hence in particular for the real one. -/
theorem c7_sigmoid_forward_backward {β : Type} [LinearOrderedField β]
    (exp : β → β) (s : Sigmoid β) {x e : List (List β)} {r c : Nat}
    (hx : Rect x r c) (he : Rect e r c) :
    Sigmoid.forward exp s (.r2 x) =
      some (.r2 (x.map (List.map fun v => 1 / (1 + exp (-v)))),
        ⟨some (.r2 x)⟩) ∧
    (∀ i j, i < r → j < c →
      entry (x.map (List.map fun v => 1 / (1 + exp (-v)))) i j =
        1 / (1 + exp (-entry x i j))) ∧
    Sigmoid.backward exp ⟨some (.r2 x)⟩ (.r2 e) =
      some (.r2 (sigmoidBackwardSpec exp x e r c), ⟨some (.r2 x)⟩) ∧
    ∀ i j, i < r → j < c →
      entry (sigmoidBackwardSpec exp x e r c) i j =
        entry e i j * (1 / (1 + exp (-entry x i j))) *
          (1 - 1 / (1 + exp (-entry x i j))) := by
  have hb2 := bcast2_eq_of_rect (f := (· * ·)) he
    (rect_map_map (fun v => sigmoidEl exp v * (1 - sigmoidEl exp v)) hx)
  have hRE : ((List.range r).map fun i => (List.range c).map fun j =>
      entry e i j *
        entry (x.map (List.map fun v =>
          sigmoidEl exp v * (1 - sigmoidEl exp v))) i j) =
      sigmoidBackwardSpec exp x e r c := by
    unfold sigmoidBackwardSpec
    apply List.map_congr_left
    intro i hi
    apply List.map_congr_left
    intro j hj
    rw [List.mem_range] at hi
    rw [List.mem_range] at hj
    rw [entry_map_map _ hx hi hj]
    unfold sigmoidEl
    rw [mul_assoc]
  rw [hRE] at hb2
  refine ⟨rfl, ?_, ?_, ?_⟩
  · intro i j hi hj
    exact entry_map_map _ hx hi hj
  · simp [Sigmoid.backward, tmap, ewise, hb2]
  · intro i j hi hj
    unfold sigmoidBackwardSpec
    exact entry_rangeMap hi hj

/-- Witness for C7 with the exponential primitive `exp v = -v` (so that
`sigmoid 0 = 1 / (1 + 0) = 1`): forward on [[0]] yields [[1]] and caches
[[0]]; backward with error [[1]] yields `1 * 1 * (1 - 1) = 0`. -/
theorem c7_witness :
    Sigmoid.forward (fun v : ℚ => -v) ⟨none⟩ (.r2 [[0]]) =
      some (.r2 [[1]], ⟨some (.r2 [[0]])⟩) ∧
    Sigmoid.backward (fun v : ℚ => -v) ⟨some (.r2 [[0]])⟩ (.r2 [[1]]) =
      some (.r2 [[0]], ⟨some (.r2 [[0]])⟩) := by
  have h := c7_sigmoid_forward_backward (fun v : ℚ => -v) (⟨none⟩ : Sigmoid ℚ)
    (show Rect [[(0 : ℚ)]] 1 1 by decide) (show Rect [[(1 : ℚ)]] 1 1 by decide)
  constructor
  · exact h.1.trans (by norm_num)
  · refine h.2.2.1.trans ?_
    norm_num [sigmoidBackwardSpec, entry, List.range_succ, List.range_zero]

/-- Witness for C3 (amended): in the spec's scenario `backward [[1]]` stores
`bias_gradients = [1]`, the column sum of the upstream error, as a rank-1
array. -/
theorem c3_witness :
    (({ weights := [[1],[2]], biases := [[0]], cached_activations := some [[3]],
        weight_gradients := [[0],[0]], bias_gradients := .r2 [[0]] } : Linear ℤ).backward
          (.r2 [[1]])).map (fun p => p.2.bias_gradients) = some (.r1 [1]) := by
  have h := c3_dense_bias_gradients
    ({ weights := [[1],[2]], biases := [[0]], cached_activations := some [[3]],
       weight_gradients := [[0],[0]], bias_gradients := .r2 [[0]] } : Linear ℤ)
    (c := [[3]]) (e := [[1]]) (b := 1) (n := 2) (m := 1)
    (by decide) (by decide) (by decide) (by decide) (by decide) (by decide) (by decide)
  rw [h.1]
  decide

end NN
